import Mathlib

/-!
Verification of the LRU cache in `lru.go` (package `main`).

The Go code keeps a doubly linked list of `Node`s (most recently used at
`head`, least recently used at `tail`) together with a map
`nodeMap : map[interface{}]*Node`, guarded by one mutex.  We embed the
sequential behaviour shallowly:

* keys are a type `K` with decidable equality (Go `interface{}` keys);
* a Go value of type `interface{}` is modelled as `Option B`: `none` is the
  Go `nil` value, `some b` any non-nil value;
* the map is an association list (`mapLookup` / `mapInsert` / `mapDelete`
  mirror Go map indexing, assignment and `delete`);
* the doubly linked list is abstracted to the sequence of keys it holds,
  front (`head`) first; `Node` identity is recoverable because keys are
  unique among live nodes.  A separate pointer-level model (`PNode`, `DLL`)
  embeds `remove` and `addFirst` at the level of `Pre`/`Next` links for the
  claims that are about the links themselves.
-/

namespace LRU

variable {K B : Type} [DecidableEq K]

/-- Go map lookup `m[k]`: the value stored for `k`, if any. -/
def mapLookup (k : K) (m : List (K × Option B)) : Option (Option B) :=
  (m.find? (fun p => p.1 = k)).map Prod.snd

/-- Go `delete(m, k)`: drop every binding of `k` (there is at most one). -/
def mapDelete (k : K) (m : List (K × Option B)) : List (K × Option B) :=
  m.filter (fun p => p.1 != k)

/-- Go map assignment `m[k] = v`: bind `k` to `v`, replacing any old binding. -/
def mapInsert (k : K) (v : Option B) (m : List (K × Option B)) :
    List (K × Option B) :=
  (k, v) :: mapDelete k m

/-- The state of a `LRUCache` (struct fields `cap`, `head`/`tail` linked list,
`nodeMap`).  `cap` is a Go `int`, so an `Int` here.  `order` is the key
sequence of the linked list from `head` (most recent) to `tail` (least
recent).  The mutex has no sequential content. -/
structure LRUCache (K B : Type) where
  cap : Int
  order : List K
  nodeMap : List (K × Option B)
  deriving Repr, DecidableEq

/-- `NewLRUCache`: sets `cap` and an empty map; there is no validation of
`cap` whatsoever in the source. -/
def NewLRUCache (cap : Int) : LRUCache K B :=
  { cap := cap, order := [], nodeMap := [] }

/-- Method `addFirst`: link the node as the new `head` and set
`nodeMap[node.Key] = node`.  At every call site the node's key is not in the
list, so at this abstraction the list gains `k` at the front. -/
def addFirst (k : K) (v : Option B) (s : LRUCache K B) : LRUCache K B :=
  { s with order := k :: s.order, nodeMap := mapInsert k v s.nodeMap }

/-- Method `remove`: unlink the node from the list and
`delete(nodeMap, node.Key)`.  Keys of live nodes are unique, so unlinking
the node is erasing its key from the sequence. -/
def remove (k : K) (s : LRUCache K B) : LRUCache K B :=
  { s with order := s.order.erase k, nodeMap := mapDelete k s.nodeMap }

/-- Method `removeLast`: if `tail == nil` do nothing, else
`delete(nodeMap, tail.Key)` and unlink the tail. -/
def removeLast (s : LRUCache K B) : LRUCache K B :=
  match s.order.getLast? with
  | none => s
  | some kL =>
      { s with order := s.order.dropLast, nodeMap := mapDelete kL s.nodeMap }

/-- Method `Get`: on a miss return Go `nil` (`none`) and leave the state
alone; on a hit `remove` then `addFirst` the node and return `node.Value`. -/
def get (s : LRUCache K B) (k : K) : Option B × LRUCache K B :=
  match mapLookup k s.nodeMap with
  | none => (none, s)
  | some v => (v, addFirst k v (remove k s))

/-- Method `Put`: if the key is absent, first `removeLast` when
`len(nodeMap) >= cap`, then add a fresh node; if present, overwrite
`node.Value` and move the node to the front (`remove` then `addFirst`). -/
def put (s : LRUCache K B) (k : K) (v : Option B) : LRUCache K B :=
  match mapLookup k s.nodeMap with
  | none =>
      let s1 := if (s.nodeMap.length : Int) ≥ s.cap then removeLast s else s
      addFirst k v s1
  | some _ => addFirst k v (remove k s)

/-- One public call: `Get key` or `Put key value`. -/
inductive Op (K B : Type) where
  | get (k : K)
  | put (k : K) (v : Option B)
  deriving Repr, DecidableEq

/-- Effect of one call on the cache state. -/
def step (s : LRUCache K B) : Op K B → LRUCache K B
  | .get k => (get s k).2
  | .put k v => put s k v

/-- Effect of a sequence of calls. -/
def run (s : LRUCache K B) (ops : List (Op K B)) : LRUCache K B :=
  ops.foldl step s

/-- A cache state instrumented with, for every key, the index of the last
operation that touched it (a `Put` of the key, or a `Get` hit), and the
number of operations executed so far.  Pure bookkeeping on top of `step`;
the cache component evolves exactly by `step`. -/
structure TState (K B : Type) where
  cache : LRUCache K B
  lastTouch : K → Nat
  time : Nat

/-- Instrumented initial state for capacity `c`. -/
def initT (c : Int) : TState K B :=
  { cache := NewLRUCache c, lastTouch := fun _ => 0, time := 0 }

/-- Instrumented step: the cache moves by `step`; a `Put` of `k` or a `Get`
hit on `k` stamps `k` with the current time. -/
def stepT (t : TState K B) (op : Op K B) : TState K B :=
  match op with
  | .get k =>
      { cache := (get t.cache k).2,
        lastTouch :=
          if (mapLookup k t.cache.nodeMap).isSome then
            fun k' => if k' = k then t.time else t.lastTouch k'
          else t.lastTouch,
        time := t.time + 1 }
  | .put k v =>
      { cache := put t.cache k v,
        lastTouch := fun k' => if k' = k then t.time else t.lastTouch k',
        time := t.time + 1 }

/-- Instrumented run. -/
def runT (t : TState K B) (ops : List (Op K B)) : TState K B :=
  ops.foldl stepT t

/-- Structural well-formedness tying the two containers together: the map's
keys, in insertion-front order, are exactly the linked list's key sequence,
and that sequence has no duplicates. -/
def WF (s : LRUCache K B) : Prop :=
  s.nodeMap.map Prod.fst = s.order ∧ s.order.Nodup

/-- The invariant maintained by every reachable instrumented state of a
cache of capacity `c`: the capacity field is `c` and never changes, the
two containers are in sync (`WF`, spelled out), the entry count respects
the capacity, the list is ordered strictly by decreasing last-touch time,
and every stored key was touched at some past instant. -/
def GInv (c : Int) (t : TState K B) : Prop :=
  t.cache.cap = c ∧
  t.cache.nodeMap.map Prod.fst = t.cache.order ∧
  t.cache.order.Nodup ∧
  (t.cache.order.length : Int) ≤ c ∧
  t.cache.order.Pairwise (fun a b => t.lastTouch b < t.lastTouch a) ∧
  (∀ k ∈ t.cache.order, t.lastTouch k < t.time)

/-! ## Pointer-level model of the linked list

For the claims about the `Pre`/`Next` links themselves, `remove` and
`addFirst` are embedded a second time at the granularity of the Go struct
`Node`.  Nodes live in a heap addressed by `Nat`; a Go pointer is
`Option Nat` (`none` is the `nil` pointer). -/

/-- The Go struct `Node` with its links made explicit heap addresses. -/
structure PNode (K B : Type) where
  key : K
  value : Option B
  pre : Option Nat
  nxt : Option Nat
  deriving Repr, DecidableEq

/-- Dereference a heap address. -/
def hGet (h : List (Nat × PNode K B)) (a : Nat) : Option (PNode K B) :=
  (h.find? (fun p => p.1 = a)).map Prod.snd

/-- Overwrite the node stored at an (allocated) address. -/
def hSet (h : List (Nat × PNode K B)) (a : Nat) (n : PNode K B) :
    List (Nat × PNode K B) :=
  h.map (fun p => if p.1 = a then (a, n) else p)

/-- The linked-list half of the `LRUCache` struct: the node heap plus the
`head` and `tail` pointers. -/
structure DLL (K B : Type) where
  heap : List (Nat × PNode K B)
  head : Option Nat
  tail : Option Nat
  deriving Repr, DecidableEq

/-- Pointer-level `remove` (the list-surgery part; the accompanying
`delete(nodeMap, node.Key)` lives in the abstract model): read `node.Pre`
and `node.Next`, splice the neighbours together, updating `head`/`tail`
at the ends.  The node's own `Pre`/`Next` fields are not written.  In Go
the argument is a `*Node`; here it is the node's address, and a dangling
address (impossible in the Go call sites) leaves the state unchanged. -/
def removeP (d : DLL K B) (a : Nat) : DLL K B :=
  match hGet d.heap a with
  | none => d
  | some node =>
      let d1 :=
        match node.pre with
        | some p =>
            { d with heap :=
                match hGet d.heap p with
                | none => d.heap
                | some np => hSet d.heap p { np with nxt := node.nxt } }
        | none => { d with head := node.nxt }
      let d2 :=
        match node.nxt with
        | some q =>
            { d1 with heap :=
                match hGet d1.heap q with
                | none => d1.heap
                | some nq => hSet d1.heap q { nq with pre := node.pre } }
        | none => { d1 with tail := node.pre }
      d2

/-- Pointer-level `addFirst` (again the list-surgery part; the map write
`nodeMap[node.Key] = node` lives in the abstract model): clear `node.Pre`;
if the list is empty make the node both `head` and `tail` (leaving
`node.Next` as it was), otherwise set `node.Next` to the old head, point
the old head's `Pre` back at the node, and make the node the new head. -/
def addFirstP (d : DLL K B) (a : Nat) : DLL K B :=
  match hGet d.heap a with
  | none => d
  | some node =>
      let node1 := { node with pre := none }
      match d.head with
      | none =>
          { heap := hSet d.heap a node1, head := some a, tail := some a }
      | some h0 =>
          let node2 := { node1 with nxt := some h0 }
          let heap1 := hSet d.heap a node2
          let heap2 :=
            match hGet heap1 h0 with
            | none => heap1
            | some hn => hSet heap1 h0 { hn with pre := some a }
          { heap := heap2, head := some a, tail := d.tail }

/-- A concrete three-node list 0 ↔ 1 ↔ 2 (keys 100, 101, 102) used to
exhibit the behaviour of the pointer-level operations. -/
def dllEx : DLL Nat Nat :=
  { heap :=
      [(0, { key := 100, value := some 0, pre := none, nxt := some 1 }),
        (1, { key := 101, value := some 1, pre := some 0, nxt := some 2 }),
        (2, { key := 102, value := some 2, pre := some 1, nxt := none })],
    head := some 0,
    tail := some 2 }

/-- A concrete one-entry cache state used alongside `dllEx`. -/
def cacheEx : LRUCache Nat Nat :=
  { cap := 1, order := [5], nodeMap := [(5, some 9)] }

/-! ## Association-list lemmas for the Go map operations -/

theorem mapLookup_cons (p : K × Option B) (t : List (K × Option B)) (k : K) :
    mapLookup k (p :: t) =
      if p.1 = k then some p.2 else mapLookup k t := by
  by_cases h : p.1 = k
  · rw [mapLookup, List.find?_cons_of_pos _ (by simpa using h), if_pos h]
    rfl
  · rw [mapLookup, List.find?_cons_of_neg _ (by simpa using h), if_neg h]
    rfl

theorem mapDelete_cons (p : K × Option B) (t : List (K × Option B)) (k : K) :
    mapDelete k (p :: t) =
      if p.1 = k then mapDelete k t else p :: mapDelete k t := by
  by_cases h : p.1 = k <;> simp [mapDelete, h]

theorem mapLookup_eq_none_iff {k : K} {m : List (K × Option B)} :
    mapLookup k m = none ↔ k ∉ m.map Prod.fst := by
  induction m with
  | nil => simp [mapLookup]
  | cons p t ih =>
      rw [mapLookup_cons]
      by_cases h : p.1 = k
      · simp [h]
      · simp only [if_neg h, ih, List.map_cons, List.mem_cons]
        constructor
        · intro hk hor
          rcases hor with hor | hor
          · exact h hor.symm
          · exact hk hor
        · intro hk hmem
          exact hk (Or.inr hmem)

theorem mem_keys_of_mapLookup_eq_some {k : K} {v : Option B}
    {m : List (K × Option B)} (h : mapLookup k m = some v) :
    k ∈ m.map Prod.fst := by
  by_contra hk
  rw [mapLookup_eq_none_iff.mpr hk] at h
  exact Option.noConfusion h

theorem keys_mapDelete (k : K) (m : List (K × Option B)) :
    (mapDelete k m).map Prod.fst = (m.map Prod.fst).filter (· != k) := by
  induction m with
  | nil => rfl
  | cons p t ih =>
      rw [mapDelete_cons]
      by_cases h : p.1 = k
      · simp only [if_pos h, List.map_cons, List.filter_cons]
        rw [ih]
        simp [h]
      · simp only [if_neg h, List.map_cons, List.filter_cons]
        rw [ih]
        simp [h]

theorem mapDelete_of_not_mem {k : K} {m : List (K × Option B)}
    (h : k ∉ m.map Prod.fst) : mapDelete k m = m := by
  refine List.filter_eq_self.mpr ?_
  intro p hp
  have hne : p.1 ≠ k := fun e => h (List.mem_map.mpr ⟨p, hp, e⟩)
  simpa using hne

theorem mapLookup_mapInsert_self (k : K) (v : Option B)
    (m : List (K × Option B)) : mapLookup k (mapInsert k v m) = some v := by
  rw [mapInsert, mapLookup_cons]
  simp

theorem mapLookup_mapDelete_ne {k k' : K} (h : k' ≠ k)
    (m : List (K × Option B)) :
    mapLookup k' (mapDelete k m) = mapLookup k' m := by
  induction m with
  | nil => rfl
  | cons p t ih =>
      rw [mapDelete_cons]
      by_cases hp : p.1 = k
      · have hpk' : ¬ p.1 = k' := by rw [hp]; exact fun e => h e.symm
        rw [if_pos hp, mapLookup_cons, if_neg hpk']
        exact ih
      · rw [if_neg hp, mapLookup_cons, mapLookup_cons]
        by_cases hq : p.1 = k'
        · rw [if_pos hq, if_pos hq]
        · rw [if_neg hq, if_neg hq]
          exact ih

theorem mapLookup_mapInsert_ne {k k' : K} (h : k' ≠ k) (v : Option B)
    (m : List (K × Option B)) :
    mapLookup k' (mapInsert k v m) = mapLookup k' m := by
  rw [mapInsert, mapLookup_cons, if_neg (fun e => h e.symm)]
  exact mapLookup_mapDelete_ne h m

theorem mapLookup_mapDelete_self (k : K) (m : List (K × Option B)) :
    mapLookup k (mapDelete k m) = none := by
  refine mapLookup_eq_none_iff.mpr ?_
  rw [keys_mapDelete]
  intro hmem
  have := List.of_mem_filter hmem
  simp at this

theorem mapDelete_mapDelete (k : K) (m : List (K × Option B)) :
    mapDelete k (mapDelete k m) = mapDelete k m := by
  refine mapDelete_of_not_mem ?_
  rw [keys_mapDelete]
  intro hmem
  have := List.of_mem_filter hmem
  simp at this

/-! ## Unfolding lemmas for the cache operations -/

theorem get_miss {s : LRUCache K B} {k : K}
    (h : mapLookup k s.nodeMap = none) : get s k = (none, s) := by
  simp [get, h]

theorem get_hit {s : LRUCache K B} {k : K} {v : Option B}
    (h : mapLookup k s.nodeMap = some v) :
    get s k = (v, addFirst k v (remove k s)) := by
  simp [get, h]

theorem put_present {s : LRUCache K B} {k : K} {w : Option B}
    (h : mapLookup k s.nodeMap = some w) (v : Option B) :
    put s k v = addFirst k v (remove k s) := by
  simp [put, h]

theorem put_absent_full {s : LRUCache K B} {k : K}
    (h : mapLookup k s.nodeMap = none)
    (hf : (s.nodeMap.length : Int) ≥ s.cap) (v : Option B) :
    put s k v = addFirst k v (removeLast s) := by
  simp [put, h, hf]

theorem put_absent_free {s : LRUCache K B} {k : K}
    (h : mapLookup k s.nodeMap = none)
    (hf : ¬ (s.nodeMap.length : Int) ≥ s.cap) (v : Option B) :
    put s k v = addFirst k v s := by
  simp [put, h, hf]

theorem removeLast_eq {s : LRUCache K B} {kL : K}
    (h : s.order.getLast? = some kL) :
    removeLast s =
      { s with order := s.order.dropLast, nodeMap := mapDelete kL s.nodeMap } := by
  simp [removeLast, h]

theorem cap_removeLast (s : LRUCache K B) : (removeLast s).cap = s.cap := by
  cases h : s.order.getLast? <;> simp [removeLast, h]

/-! ## Key-set computations for the three mutation shapes -/

theorem keys_addFirst {s : LRUCache K B} {k : K} (v : Option B)
    (h : k ∉ s.nodeMap.map Prod.fst) :
    (addFirst k v s).nodeMap.map Prod.fst = k :: s.nodeMap.map Prod.fst := by
  simp [addFirst, mapInsert, mapDelete_of_not_mem h]

theorem keys_remove {s : LRUCache K B} (k : K)
    (hkeys : s.nodeMap.map Prod.fst = s.order) (hnd : s.order.Nodup) :
    (remove k s).nodeMap.map Prod.fst = s.order.erase k := by
  show (mapDelete k s.nodeMap).map Prod.fst = s.order.erase k
  rw [keys_mapDelete, hkeys, hnd.erase_eq_filter]

theorem getLast_not_mem_dropLast {l : List K} {kL : K} (hnd : l.Nodup)
    (hL : l.getLast? = some kL) : kL ∉ l.dropLast := by
  have he : l.dropLast ++ [kL] = l :=
    List.dropLast_append_getLast? kL (by rw [hL]; rfl)
  rw [← he] at hnd
  have disj := List.disjoint_of_nodup_append hnd
  intro hmem
  exact disj hmem (List.mem_singleton_self kL)

theorem keys_removeLast {s : LRUCache K B} {kL : K}
    (hL : s.order.getLast? = some kL)
    (hkeys : s.nodeMap.map Prod.fst = s.order) (hnd : s.order.Nodup) :
    (removeLast s).nodeMap.map Prod.fst = s.order.dropLast := by
  rw [removeLast_eq hL]
  show (mapDelete kL s.nodeMap).map Prod.fst = s.order.dropLast
  rw [keys_mapDelete, hkeys]
  have he : s.order.dropLast ++ [kL] = s.order :=
    List.dropLast_append_getLast? kL (by rw [hL]; rfl)
  have hnotmem : kL ∉ s.order.dropLast := getLast_not_mem_dropLast hnd hL
  rw [← he, List.filter_append]
  have h1 : s.order.dropLast.filter (· != kL) = s.order.dropLast := by
    refine List.filter_eq_self.mpr ?_
    intro x hx
    have : x ≠ kL := fun e => hnotmem (e ▸ hx)
    simpa using this
  have h2 : [kL].filter (· != kL) = ([] : List K) := by simp
  rw [h1, h2, List.append_nil]
  simp

/-! ## Recency bookkeeping -/

/-- Stamping the moved/inserted key `k` with the current time keeps the
order list strictly sorted by decreasing last touch, provided the tail of
the new list is a duplicate-free part of the old one not containing `k`. -/
theorem pairwise_stamp {l' order : List K} {touch : K → Nat} {time : Nat}
    {k : K} (hsub : List.Sublist l' order) (hk : k ∉ l')
    (hpw : order.Pairwise fun a b => touch b < touch a)
    (hlt : ∀ x ∈ order, touch x < time) :
    ((k :: l').Pairwise fun a b =>
        (if b = k then time else touch b) < (if a = k then time else touch a)) ∧
      (∀ x ∈ k :: l', (if x = k then time else touch x) < time + 1) := by
  constructor
  · refine List.pairwise_cons.mpr ⟨?_, ?_⟩
    · intro b hb
      have hbne : b ≠ k := fun e => hk (e ▸ hb)
      rw [if_pos rfl, if_neg hbne]
      exact hlt b (hsub.subset hb)
    · refine (hpw.sublist hsub).imp_of_mem ?_
      intro a b ha hb hab
      have hane : a ≠ k := fun e => hk (e ▸ ha)
      have hbne : b ≠ k := fun e => hk (e ▸ hb)
      rw [if_neg hane, if_neg hbne]
      exact hab
  · intro x hx
    rcases List.mem_cons.mp hx with rfl | hx'
    · rw [if_pos rfl]
      exact Nat.lt_succ_self time
    · have hxne : x ≠ k := fun e => hk (e ▸ hx')
      rw [if_neg hxne]
      exact Nat.lt_succ_of_lt (hlt x (hsub.subset hx'))

/-- Invariant preservation for the shape shared by a `Get` hit and a `Put`
of a present key: the node is removed, re-pushed at the front with some
value, and the key is stamped with the current time. -/
theorem ginv_move {c : Int} {t : TState K B} {k : K} (v : Option B)
    (h : GInv c t) (hk : k ∈ t.cache.order) :
    GInv c
      { cache := addFirst k v (remove k t.cache),
        lastTouch := fun k' => if k' = k then t.time else t.lastTouch k',
        time := t.time + 1 } := by
  obtain ⟨hcap, hkeys, hnd, hlen, hpw, htime⟩ := h
  have hkeys' : (addFirst k v (remove k t.cache)).nodeMap.map Prod.fst =
      k :: t.cache.order.erase k := by
    have hrm := keys_remove (s := t.cache) k hkeys hnd
    have hnot : k ∉ (remove k t.cache).nodeMap.map Prod.fst := by
      rw [hrm]
      exact hnd.not_mem_erase
    rw [keys_addFirst v hnot, hrm]
  have horder' : (addFirst k v (remove k t.cache)).order =
      k :: t.cache.order.erase k := rfl
  have hsub : List.Sublist (t.cache.order.erase k) t.cache.order :=
    List.erase_sublist k t.cache.order
  have hknotin : k ∉ t.cache.order.erase k := hnd.not_mem_erase
  have hstamp := pairwise_stamp hsub hknotin hpw htime
  refine ⟨hcap, ?_, ?_, ?_, ?_, ?_⟩
  · rw [hkeys', horder']
  · rw [horder']
    exact List.Nodup.cons hknotin (hnd.sublist hsub)
  · rw [horder']
    have hpos : 0 < t.cache.order.length := List.length_pos.mpr
      (List.ne_nil_of_mem hk)
    have herase : (t.cache.order.erase k).length = t.cache.order.length - 1 :=
      List.length_erase_of_mem hk
    simp only [List.length_cons, herase]
    have : t.cache.order.length - 1 + 1 = t.cache.order.length := by omega
    rw [this]
    exact hlen
  · exact hstamp.1
  · exact hstamp.2

/-- Invariant preservation for a `Put` of an absent key when the cache is
at (or over) capacity: the tail node is evicted, the new node is pushed at
the front, and the new key is stamped. -/
theorem ginv_put_evict {c : Int} (hc : 1 ≤ c) {t : TState K B} {k : K}
    (v : Option B) (h : GInv c t) (hk : k ∉ t.cache.order)
    (hfull : (t.cache.nodeMap.length : Int) ≥ t.cache.cap) :
    GInv c
      { cache := addFirst k v (removeLast t.cache),
        lastTouch := fun k' => if k' = k then t.time else t.lastTouch k',
        time := t.time + 1 } := by
  obtain ⟨hcap, hkeys, hnd, hlen, hpw, htime⟩ := h
  have hlen_eq : t.cache.nodeMap.length = t.cache.order.length := by
    rw [← hkeys, List.length_map]
  have hpos : 0 < t.cache.order.length := by
    rw [hcap] at hfull
    rw [hlen_eq] at hfull
    omega
  have hne : t.cache.order ≠ [] := by
    intro e
    rw [e] at hpos
    exact Nat.lt_irrefl 0 hpos
  obtain ⟨kL, hL⟩ : ∃ kL, t.cache.order.getLast? = some kL := by
    cases ho : t.cache.order.getLast? with
    | none => exact absurd (List.getLast?_eq_none.mp ho) hne
    | some kL => exact ⟨kL, rfl⟩
  have hkeysRL := keys_removeLast hL hkeys hnd
  have hkdrop : k ∉ t.cache.order.dropLast :=
    fun hmem => hk ((List.dropLast_sublist t.cache.order).subset hmem)
  have hkeys' : (addFirst k v (removeLast t.cache)).nodeMap.map Prod.fst =
      k :: t.cache.order.dropLast := by
    rw [keys_addFirst v (hkeysRL ▸ hkdrop), hkeysRL]
  have horder' : (addFirst k v (removeLast t.cache)).order =
      k :: t.cache.order.dropLast := by
    rw [removeLast_eq hL]
    rfl
  have hsub : List.Sublist t.cache.order.dropLast t.cache.order :=
    List.dropLast_sublist t.cache.order
  have hstamp := pairwise_stamp hsub hkdrop hpw htime
  refine ⟨?_, ?_, ?_, ?_, ?_, ?_⟩
  · show (addFirst k v (removeLast t.cache)).cap = c
    rw [show (addFirst k v (removeLast t.cache)).cap = (removeLast t.cache).cap
        from rfl, cap_removeLast, hcap]
  · rw [hkeys', horder']
  · rw [horder']
    exact List.Nodup.cons hkdrop (hnd.sublist hsub)
  · rw [horder']
    simp only [List.length_cons, List.length_dropLast]
    have : t.cache.order.length - 1 + 1 = t.cache.order.length := by omega
    rw [this]
    exact hlen
  · rw [horder']
    exact hstamp.1
  · rw [horder']
    exact hstamp.2

/-- Invariant preservation for a `Put` of an absent key with spare room:
the new node is pushed at the front and the new key is stamped. -/
theorem ginv_put_free {c : Int} {t : TState K B} {k : K}
    (v : Option B) (h : GInv c t) (hk : k ∉ t.cache.order)
    (hfree : ¬ (t.cache.nodeMap.length : Int) ≥ t.cache.cap) :
    GInv c
      { cache := addFirst k v t.cache,
        lastTouch := fun k' => if k' = k then t.time else t.lastTouch k',
        time := t.time + 1 } := by
  obtain ⟨hcap, hkeys, hnd, hlen, hpw, htime⟩ := h
  have hlen_eq : t.cache.nodeMap.length = t.cache.order.length := by
    rw [← hkeys, List.length_map]
  have hkeys' : (addFirst k v t.cache).nodeMap.map Prod.fst =
      k :: t.cache.order := by
    rw [keys_addFirst v (hkeys ▸ hk), hkeys]
  have hstamp := pairwise_stamp (List.Sublist.refl t.cache.order) hk hpw htime
  refine ⟨hcap, ?_, ?_, ?_, ?_, ?_⟩
  · rw [hkeys']
    rfl
  · exact List.Nodup.cons hk hnd
  · show ((k :: t.cache.order).length : Int) ≤ c
    rw [hcap] at hfree
    rw [hlen_eq] at hfree
    simp only [List.length_cons]
    push_cast
    push_cast at hfree
    omega
  · exact hstamp.1
  · exact hstamp.2

/-- Every instrumented step preserves the invariant (capacity at least 1). -/
theorem ginv_stepT {c : Int} (hc : 1 ≤ c) {t : TState K B} (h : GInv c t)
    (op : Op K B) : GInv c (stepT t op) := by
  cases op with
  | get k =>
      cases hm : mapLookup k t.cache.nodeMap with
      | none =>
          obtain ⟨hcap, hkeys, hnd, hlen, hpw, htime⟩ := h
          have hcache : (get t.cache k).2 = t.cache := by rw [get_miss hm]
          refine ⟨?_, ?_, ?_, ?_, ?_, ?_⟩ <;>
            simp only [stepT, hm, Option.isSome_none, Bool.false_eq_true,
              if_false, hcache]
          · exact hcap
          · exact hkeys
          · exact hnd
          · exact hlen
          · exact hpw
          · exact fun x hx => Nat.lt_succ_of_lt (htime x hx)
      | some w =>
          have hk : k ∈ t.cache.order := by
            rw [← h.2.1]
            exact mem_keys_of_mapLookup_eq_some hm
          have hshape : stepT t (Op.get k) =
              { cache := addFirst k w (remove k t.cache),
                lastTouch := fun k' => if k' = k then t.time else t.lastTouch k',
                time := t.time + 1 } := by
            simp only [stepT, hm, Option.isSome_some, if_true, get_hit hm]
          rw [hshape]
          exact ginv_move w h hk
  | put k v =>
      cases hm : mapLookup k t.cache.nodeMap with
      | none =>
          have hk : k ∉ t.cache.order := by
            rw [← h.2.1]
            exact mapLookup_eq_none_iff.mp hm
          by_cases hfull : (t.cache.nodeMap.length : Int) ≥ t.cache.cap
          · have hshape : stepT t (Op.put k v) =
                { cache := addFirst k v (removeLast t.cache),
                  lastTouch := fun k' => if k' = k then t.time else t.lastTouch k',
                  time := t.time + 1 } := by
              simp only [stepT, put_absent_full hm hfull v]
            rw [hshape]
            exact ginv_put_evict hc v h hk hfull
          · have hshape : stepT t (Op.put k v) =
                { cache := addFirst k v t.cache,
                  lastTouch := fun k' => if k' = k then t.time else t.lastTouch k',
                  time := t.time + 1 } := by
              simp only [stepT, put_absent_free hm hfull v]
            rw [hshape]
            exact ginv_put_free v h hk hfull
      | some w =>
          have hk : k ∈ t.cache.order := by
            rw [← h.2.1]
            exact mem_keys_of_mapLookup_eq_some hm
          have hshape : stepT t (Op.put k v) =
              { cache := addFirst k v (remove k t.cache),
                lastTouch := fun k' => if k' = k then t.time else t.lastTouch k',
                time := t.time + 1 } := by
            simp only [stepT, put_present hm v]
          rw [hshape]
          exact ginv_move v h hk

/-- The invariant holds initially (for a capacity of at least 1). -/
theorem ginv_initT {c : Int} (hc : 1 ≤ c) :
    GInv c (initT (K := K) (B := B) c) := by
  refine ⟨rfl, rfl, List.nodup_nil, ?_, List.Pairwise.nil, ?_⟩
  · show ((List.length []) : Int) ≤ c
    simp only [List.length_nil, Int.natCast_zero]
    omega
  · intro x hx
    exact absurd hx (List.not_mem_nil x)

/-- The invariant holds along any run (capacity at least 1). -/
theorem ginv_runT {c : Int} (hc : 1 ≤ c) {t : TState K B} (h : GInv c t)
    (ops : List (Op K B)) : GInv c (runT t ops) := by
  induction ops generalizing t with
  | nil => exact h
  | cons op rest ih => exact ih (ginv_stepT hc h op)

/-- The instrumentation does not disturb the cache: projecting an
instrumented run yields the plain run. -/
theorem runT_cache (t : TState K B) (ops : List (Op K B)) :
    (runT t ops).cache = run t.cache ops := by
  induction ops generalizing t with
  | nil => rfl
  | cons op rest ih =>
      show (runT (stepT t op) rest).cache = run (step t.cache op) rest
      rw [ih]
      have : (stepT t op).cache = step t.cache op := by cases op <;> rfl
      rw [this]

/-! ## Small facts shared by the claim proofs -/

theorem lookup_addFirst_self (s : LRUCache K B) (k : K) (v : Option B) :
    mapLookup k (addFirst k v s).nodeMap = some v :=
  mapLookup_mapInsert_self k v s.nodeMap

theorem put_eq_addFirst (s : LRUCache K B) (k : K) (v : Option B) :
    ∃ s', put s k v = addFirst k v s' := by
  cases hm : mapLookup k s.nodeMap with
  | none =>
      by_cases hf : (s.nodeMap.length : Int) ≥ s.cap
      · exact ⟨removeLast s, put_absent_full hm hf v⟩
      · exact ⟨s, put_absent_free hm hf v⟩
  | some w => exact ⟨remove k s, put_present hm v⟩

theorem hGet_hSet_self {h : List (Nat × PNode K B)} {a : Nat}
    (hmem : (hGet h a).isSome) (n : PNode K B) :
    hGet (hSet h a n) a = some n := by
  induction h with
  | nil => simp [hGet] at hmem
  | cons p t ih =>
      by_cases hp : p.1 = a
      · rw [hSet, List.map_cons, if_pos hp]
        rw [hGet, List.find?_cons_of_pos _ (by simp)]
        rfl
      · rw [hGet, List.find?_cons_of_neg _ (by simpa using hp)] at hmem
        rw [hSet, List.map_cons, if_neg hp]
        rw [hGet, List.find?_cons_of_neg _ (by simpa using hp)]
        exact ih hmem

theorem hGet_hSet_ne {h : List (Nat × PNode K B)} {a b : Nat}
    (hne : b ≠ a) (n : PNode K B) :
    hGet (hSet h a n) b = hGet h b := by
  induction h with
  | nil => rfl
  | cons p t ih =>
      by_cases hp : p.1 = a
      · have hpb : ¬ (a : Nat) = b := fun e => hne e.symm
        have hpb' : ¬ p.1 = b := by rw [hp]; exact hpb
        rw [hSet, List.map_cons, if_pos hp]
        rw [hGet, List.find?_cons_of_neg _ (by simpa using hpb),
          hGet, List.find?_cons_of_neg _ (by simpa using hpb')]
        exact ih
      · rw [hSet, List.map_cons, if_neg hp]
        by_cases hq : p.1 = b
        · rw [hGet, List.find?_cons_of_pos _ (by simpa using hq),
            hGet, List.find?_cons_of_pos _ (by simpa using hq)]
        · rw [hGet, List.find?_cons_of_neg _ (by simpa using hq),
            hGet, List.find?_cons_of_neg _ (by simpa using hq)]
          exact ih

/-! ## The claims -/

/-- Claim C5: read-through-write idempotence.  After `Put(k, v)` the key
`k` is present with stored value `v` (a hit), and an immediate `Get(k)`
returns that `v` — for every prior cache state, well-formed or not, hence
in particular for every state of a cache constructed with capacity at
least 1. -/
theorem c5_read_through_write {K B : Type} [DecidableEq K]
    (s : LRUCache K B) (k : K) (v : Option B) :
    mapLookup k (put s k v).nodeMap = some v ∧
      (get (put s k v) k).1 = v := by
  obtain ⟨s', hs'⟩ := put_eq_addFirst s k v
  have hl : mapLookup k (put s k v).nodeMap = some v := by
    rw [hs']
    exact lookup_addFirst_self s' k v
  exact ⟨hl, by rw [get_hit hl]⟩

/-- Claim C6: overwrite semantics.  A `Put` on a key that is already
present (here: just written by a previous `Put`) overwrites the stored
value, moves the entry to the front of the recency list, evicts nothing
(every other key keeps its binding), and leaves the entry count unchanged;
a following `Get(k)` returns the second value. -/
theorem c6_overwrite {K B : Type} [DecidableEq K]
    (s : LRUCache K B) (k : K) (v1 v2 : Option B) :
    mapLookup k (put (put s k v1) k v2).nodeMap = some v2 ∧
      (get (put (put s k v1) k v2) k).1 = v2 ∧
      (put (put s k v1) k v2).nodeMap.length = (put s k v1).nodeMap.length ∧
      (put (put s k v1) k v2).order.head? = some k ∧
      (∀ k', k' ≠ k →
        mapLookup k' (put (put s k v1) k v2).nodeMap =
          mapLookup k' (put s k v1).nodeMap) := by
  obtain ⟨s', hs'⟩ := put_eq_addFirst s k v1
  have hl1 : mapLookup k (put s k v1).nodeMap = some v1 := by
    rw [hs']
    exact lookup_addFirst_self s' k v1
  have h2 : put (put s k v1) k v2 = addFirst k v2 (remove k (put s k v1)) :=
    put_present hl1 v2
  have hl2 : mapLookup k (put (put s k v1) k v2).nodeMap = some v2 := by
    rw [h2]
    exact lookup_addFirst_self _ k v2
  refine ⟨hl2, by rw [get_hit hl2], ?_, ?_, ?_⟩
  · rw [h2, hs']
    show (mapInsert k v2 (mapDelete k (addFirst k v1 s').nodeMap)).length =
      (addFirst k v1 s').nodeMap.length
    show ((k, v2) :: mapDelete k (mapDelete k (mapInsert k v1 s'.nodeMap))).length
      = (mapInsert k v1 s'.nodeMap).length
    rw [show mapDelete k (mapInsert k v1 s'.nodeMap)
        = mapDelete k s'.nodeMap from by
      rw [mapInsert, mapDelete_cons, if_pos rfl, mapDelete_mapDelete]]
    rw [mapDelete_mapDelete]
    rfl
  · rw [h2]
    rfl
  · intro k' hk'
    rw [h2]
    show mapLookup k' (mapInsert k v2 (mapDelete k (put s k v1).nodeMap)) = _
    rw [mapLookup_mapInsert_ne hk', mapLookup_mapDelete_ne hk']

/-- Claim C1: capacity invariant.  For every capacity `c ≥ 1` and every
finite sequence of `Get`/`Put` calls on a cache built by `NewLRUCache c`,
the number of stored keys (`len(nodeMap)`) is at most `c`.  The sequence
of calls is arbitrary, so the bound holds after every call of any longer
sequence as well. -/
theorem c1_capacity_invariant {K B : Type} [DecidableEq K] (c : Int)
    (hc : 1 ≤ c) (ops : List (Op K B)) :
    ((run (NewLRUCache c) ops).nodeMap.length : Int) ≤ c := by
  have hinv := ginv_runT hc (ginv_initT (K := K) (B := B) hc) ops
  obtain ⟨-, hkeys, -, hlen, -, -⟩ := hinv
  rw [runT_cache] at hkeys hlen
  have hkeys' : List.map Prod.fst (run (NewLRUCache (K := K) (B := B) c) ops).nodeMap
      = (run (NewLRUCache c) ops).order := hkeys
  have hlen' : ((run (NewLRUCache (K := K) (B := B) c) ops).order.length : Int)
      ≤ c := hlen
  have : (run (NewLRUCache (K := K) (B := B) c) ops).nodeMap.length
      = (run (NewLRUCache (K := K) (B := B) c) ops).order.length := by
    rw [← hkeys', List.length_map]
  rw [this]
  exact hlen'

/-- Claim C1 witness: a concrete run at capacity 2 in which a third key is
put, so an eviction keeps the entry count at 2. -/
theorem c1_capacity_invariant_witness :
    (1 : Int) ≤ 2 ∧
      ((run (NewLRUCache 2)
          [Op.put 1 (some 10), Op.put 2 (some 20), Op.put 3 (some 30),
            Op.get 1] : LRUCache Nat Nat).nodeMap.length : Int) ≤ 2 :=
  ⟨by decide,
    c1_capacity_invariant 2 (by decide)
      [Op.put 1 (some 10), Op.put 2 (some 20), Op.put 3 (some 30), Op.get 1]⟩

/-- Claim C7: frame effect of a `Get` hit.  On a reachable cache state, a
`Get` of a present key returns the stored value unchanged, moves that key
to the front of the recency order, and changes nothing else: every key
keeps its binding (so the set of stored keys and all stored values are
unchanged), the entry count is unchanged, and the capacity is unchanged. -/
theorem c7_get_frame {K B : Type} [DecidableEq K] (c : Int) (hc : 1 ≤ c)
    (ops : List (Op K B)) (k : K) (v : Option B)
    (hk : mapLookup k (run (NewLRUCache c) ops).nodeMap = some v) :
    (get (run (NewLRUCache c) ops) k).1 = v ∧
      (get (run (NewLRUCache c) ops) k).2.order =
        k :: (run (NewLRUCache c) ops).order.erase k ∧
      (∀ k', mapLookup k' (get (run (NewLRUCache c) ops) k).2.nodeMap =
        mapLookup k' (run (NewLRUCache c) ops).nodeMap) ∧
      (get (run (NewLRUCache c) ops) k).2.nodeMap.length =
        (run (NewLRUCache c) ops).nodeMap.length ∧
      (get (run (NewLRUCache c) ops) k).2.cap =
        (run (NewLRUCache c) ops).cap := by
  have hinv := ginv_runT hc (ginv_initT (K := K) (B := B) hc) ops
  obtain ⟨-, hkeys, hnd, -, -, -⟩ := hinv
  rw [runT_cache,
    show (initT (K := K) (B := B) c).cache = NewLRUCache c from rfl]
    at hkeys hnd
  have hg := get_hit hk
  have hmem : k ∈ (run (NewLRUCache c) ops).order := by
    rw [← hkeys]
    exact mem_keys_of_mapLookup_eq_some hk
  refine ⟨by rw [hg], by rw [hg]; rfl, ?_, ?_, by rw [hg]; rfl⟩
  · intro k'
    rw [hg]
    by_cases hkk : k' = k
    · subst hkk
      rw [show (addFirst k' v (remove k' (run (NewLRUCache c) ops))).nodeMap
          = mapInsert k' v (mapDelete k' (run (NewLRUCache c) ops).nodeMap)
          from rfl]
      rw [mapLookup_mapInsert_self, hk]
    · rw [show (addFirst k v (remove k (run (NewLRUCache c) ops))).nodeMap
          = mapInsert k v (mapDelete k (run (NewLRUCache c) ops).nodeMap)
          from rfl]
      rw [mapLookup_mapInsert_ne hkk, mapLookup_mapDelete_ne hkk]
  · rw [hg]
    show (addFirst k v (remove k (run (NewLRUCache c) ops))).nodeMap.length
      = (run (NewLRUCache c) ops).nodeMap.length
    show ((k, v) ::
        mapDelete k (mapDelete k (run (NewLRUCache c) ops).nodeMap)).length
      = (run (NewLRUCache c) ops).nodeMap.length
    rw [mapDelete_mapDelete, List.length_cons]
    have h2 : (mapDelete k (run (NewLRUCache c) ops).nodeMap).length
        = (run (NewLRUCache c) ops).order.length - 1 := by
      have hk2 := congrArg List.length
        (keys_remove (s := run (NewLRUCache c) ops) k hkeys hnd)
      rw [List.length_map] at hk2
      rw [show (remove k (run (NewLRUCache c) ops)).nodeMap
          = mapDelete k (run (NewLRUCache c) ops).nodeMap from rfl] at hk2
      rw [hk2, List.length_erase_of_mem hmem]
    have h3 : (run (NewLRUCache c) ops).nodeMap.length
        = (run (NewLRUCache c) ops).order.length := by
      rw [← hkeys, List.length_map]
    have hpos : 0 < (run (NewLRUCache c) ops).order.length :=
      List.length_pos.mpr (List.ne_nil_of_mem hmem)
    omega

/-- Claim C2: recency correctness of eviction.  On any reachable
instrumented state of a cache with capacity `c ≥ 1` holding exactly `c`
keys, a `Put` of an absent key `k` equals `removeLast` followed by
`addFirst` — the eviction happens strictly before the insertion, and after
the `removeLast` (so before the new entry exists) the evicted key is
already gone.  The single evicted key is the `tail` of the recency list,
it is currently stored, and among all currently stored keys it is the one
whose last touch by a `Get` or `Put` is strictly the oldest. -/
theorem c2_eviction_lru {K B : Type} [DecidableEq K] (c : Int) (hc : 1 ≤ c)
    (ops : List (Op K B)) (k : K) (v : Option B)
    (habs : mapLookup k (runT (initT c) ops).cache.nodeMap = none)
    (hsize : ((runT (initT c) ops).cache.nodeMap.length : Int) = c) :
    ∃ kL,
      (runT (initT c) ops).cache.order.getLast? = some kL ∧
      mapLookup kL (runT (initT c) ops).cache.nodeMap ≠ none ∧
      kL ≠ k ∧
      (∀ k', mapLookup k' (runT (initT c) ops).cache.nodeMap ≠ none →
        k' ≠ kL →
        (runT (initT c) ops).lastTouch kL < (runT (initT c) ops).lastTouch k') ∧
      put (runT (initT c) ops).cache k v
        = addFirst k v (removeLast (runT (initT c) ops).cache) ∧
      mapLookup kL (removeLast (runT (initT c) ops).cache).nodeMap = none ∧
      (put (runT (initT c) ops).cache k v).order
        = k :: (runT (initT c) ops).cache.order.dropLast ∧
      mapLookup kL (put (runT (initT c) ops).cache k v).nodeMap = none := by
  obtain ⟨hcap, hkeys, hnd, hlen, hpw, htime⟩ :=
    ginv_runT hc (ginv_initT (K := K) (B := B) hc) ops
  have hlen_eq : (runT (initT c) ops).cache.nodeMap.length
      = (runT (initT c) ops).cache.order.length := by
    rw [← hkeys, List.length_map]
  have hpos : 0 < (runT (initT (K := K) (B := B) c) ops).cache.order.length := by
    rw [hlen_eq] at hsize
    omega
  have hne : (runT (initT (K := K) (B := B) c) ops).cache.order ≠ [] := by
    intro e
    rw [e] at hpos
    exact Nat.lt_irrefl 0 hpos
  obtain ⟨kL, hL⟩ :
      ∃ kL, (runT (initT (K := K) (B := B) c) ops).cache.order.getLast?
        = some kL := by
    cases ho : (runT (initT (K := K) (B := B) c) ops).cache.order.getLast? with
    | none => exact absurd (List.getLast?_eq_none.mp ho) hne
    | some kL => exact ⟨kL, rfl⟩
  have he : (runT (initT (K := K) (B := B) c) ops).cache.order.dropLast ++ [kL]
      = (runT (initT c) ops).cache.order :=
    List.dropLast_append_getLast? kL (by rw [hL]; rfl)
  have hkLmem : kL ∈ (runT (initT (K := K) (B := B) c) ops).cache.order := by
    rw [← he]
    exact List.mem_append_right _ (List.mem_singleton_self kL)
  have hstored : mapLookup kL (runT (initT c) ops).cache.nodeMap ≠ none := by
    intro hnone
    exact (hkeys ▸ mapLookup_eq_none_iff.mp hnone) hkLmem
  have hkLk : kL ≠ k := by
    intro e
    rw [e] at hstored
    exact hstored habs
  have hfull : ((runT (initT (K := K) (B := B) c) ops).cache.nodeMap.length : Int)
      ≥ (runT (initT c) ops).cache.cap := by
    rw [hcap, hsize]
  have hputeq : put (runT (initT c) ops).cache k v
      = addFirst k v (removeLast (runT (initT c) ops).cache) :=
    put_absent_full habs hfull v
  have hRLmap : (removeLast (runT (initT (K := K) (B := B) c) ops).cache).nodeMap
      = mapDelete kL (runT (initT c) ops).cache.nodeMap := by
    rw [removeLast_eq hL]
  refine ⟨kL, hL, hstored, hkLk, ?_, hputeq, ?_, ?_, ?_⟩
  · intro k' hk' hne'
    have hk'mem : k' ∈ (runT (initT (K := K) (B := B) c) ops).cache.order := by
      by_contra hno
      exact hk' (mapLookup_eq_none_iff.mpr (hkeys ▸ hno))
    have hk'dl : k' ∈ (runT (initT (K := K) (B := B) c) ops).cache.order.dropLast := by
      rw [← he] at hk'mem
      rcases List.mem_append.mp hk'mem with h | h
      · exact h
      · exact absurd (List.mem_singleton.mp h) hne'
    rw [← he] at hpw
    have := (List.pairwise_append.mp hpw).2.2 k' hk'dl kL
      (List.mem_singleton_self kL)
    exact this
  · rw [hRLmap]
    exact mapLookup_mapDelete_self kL _
  · rw [hputeq]
    show k :: (removeLast (runT (initT c) ops).cache).order
      = k :: (runT (initT c) ops).cache.order.dropLast
    rw [removeLast_eq hL]
  · rw [hputeq]
    show mapLookup kL
      (mapInsert k v (removeLast (runT (initT c) ops).cache).nodeMap) = none
    rw [mapLookup_mapInsert_ne hkLk, hRLmap]
    exact mapLookup_mapDelete_self kL _

/-- Claim C2 witness: capacity 2 with keys 1 and 2 stored; putting absent
key 3 evicts exactly key 1, the least recently touched. -/
theorem c2_eviction_lru_witness :
    (1 : Int) ≤ 2 ∧
      mapLookup 3 ((runT (initT 2)
          [Op.put 1 (some 10), Op.put 2 (some 20)] :
        TState Nat Nat)).cache.nodeMap = none ∧
      (((runT (initT 2) [Op.put 1 (some 10), Op.put 2 (some 20)] :
        TState Nat Nat)).cache.nodeMap.length : Int) = 2 ∧
      (∃ kL,
        ((runT (initT 2) [Op.put 1 (some 10), Op.put 2 (some 20)] :
          TState Nat Nat)).cache.order.getLast? = some kL ∧
        mapLookup kL ((runT (initT 2)
            [Op.put 1 (some 10), Op.put 2 (some 20)] :
          TState Nat Nat)).cache.nodeMap ≠ none ∧
        kL ≠ 3 ∧
        (∀ k', mapLookup k' ((runT (initT 2)
            [Op.put 1 (some 10), Op.put 2 (some 20)] :
          TState Nat Nat)).cache.nodeMap ≠ none → k' ≠ kL →
          ((runT (initT 2) [Op.put 1 (some 10), Op.put 2 (some 20)] :
            TState Nat Nat)).lastTouch kL
            < ((runT (initT 2) [Op.put 1 (some 10), Op.put 2 (some 20)] :
              TState Nat Nat)).lastTouch k') ∧
        put ((runT (initT 2) [Op.put 1 (some 10), Op.put 2 (some 20)] :
          TState Nat Nat)).cache 3 (some 30)
          = addFirst 3 (some 30)
              (removeLast ((runT (initT 2)
                [Op.put 1 (some 10), Op.put 2 (some 20)] :
                TState Nat Nat)).cache) ∧
        mapLookup kL (removeLast ((runT (initT 2)
            [Op.put 1 (some 10), Op.put 2 (some 20)] :
          TState Nat Nat)).cache).nodeMap = none ∧
        (put ((runT (initT 2) [Op.put 1 (some 10), Op.put 2 (some 20)] :
          TState Nat Nat)).cache 3 (some 30)).order
          = 3 :: ((runT (initT 2) [Op.put 1 (some 10), Op.put 2 (some 20)] :
            TState Nat Nat)).cache.order.dropLast ∧
        mapLookup kL (put ((runT (initT 2)
            [Op.put 1 (some 10), Op.put 2 (some 20)] :
          TState Nat Nat)).cache 3 (some 30)).nodeMap = none) :=
  ⟨by decide, by decide, by decide,
    c2_eviction_lru 2 (by decide) [Op.put 1 (some 10), Op.put 2 (some 20)]
      3 (some 30) (by decide) (by decide)⟩

/-- Claim C7 witness: capacity 2, run `Put 1 10; Put 2 20`, then `Get 1`
hits and only moves key 1 to the front. -/
theorem c7_get_frame_witness :
    (1 : Int) ≤ 2 ∧
      mapLookup 1 ((run (NewLRUCache 2)
          [Op.put 1 (some 10), Op.put 2 (some 20)] :
        LRUCache Nat Nat)).nodeMap = some (some 10) ∧
      ((get (run (NewLRUCache 2)
          [Op.put 1 (some 10), Op.put 2 (some 20)] : LRUCache Nat Nat) 1).1
        = some 10 ∧
      (get (run (NewLRUCache 2)
          [Op.put 1 (some 10), Op.put 2 (some 20)] : LRUCache Nat Nat) 1).2.order
        = 1 :: (run (NewLRUCache 2)
          [Op.put 1 (some 10), Op.put 2 (some 20)] :
            LRUCache Nat Nat).order.erase 1) :=
  ⟨by decide, by decide,
    ((c7_get_frame 2 (by decide) [Op.put 1 (some 10), Op.put 2 (some 20)] 1
        (some 10) (by decide)).1),
    ((c7_get_frame 2 (by decide) [Op.put 1 (some 10), Op.put 2 (some 20)] 1
        (some 10) (by decide)).2.1)⟩

/-- Claim C3 counterexample: `Get` has no `found` flag.  With key 0 stored
carrying the Go `nil` value and key 1 absent, `Get 0` (a hit on a
legitimately stored value) and `Get 1` (a miss) return the very same
result `nil`, so the miss result does coincide with a stored sentinel
value. -/
theorem c3_counterexample_nil_miss :
    mapLookup 0 (put (NewLRUCache 1 : LRUCache Nat Nat) 0 none).nodeMap
      = some none ∧
    (get (put (NewLRUCache 1 : LRUCache Nat Nat) 0 none) 0).1 = none ∧
    mapLookup 1 (put (NewLRUCache 1 : LRUCache Nat Nat) 0 none).nodeMap
      = none ∧
    (get (put (NewLRUCache 1 : LRUCache Nat Nat) 0 none) 1).1 = none ∧
    (get (put (NewLRUCache 1 : LRUCache Nat Nat) 0 none) 0).1
      = (get (put (NewLRUCache 1 : LRUCache Nat Nat) 0 none) 1).1 := by
  decide

/-- Claim C3 as amended: `Get` on an absent key returns the Go `nil` value
and leaves the state untouched; there is no separate `found` flag, so this
miss result coincides with the result of a `Get` hit on any key whose
stored value is `nil`. -/
theorem c3_amended_nil_miss {K B : Type} [DecidableEq K]
    (s : LRUCache K B) (k : K) (h : mapLookup k s.nodeMap = none) :
    get s k = (none, s) ∧
      ∀ (s2 : LRUCache K B) (k2 : K),
        mapLookup k2 s2.nodeMap = some none →
        (get s2 k2).1 = (get s k).1 := by
  refine ⟨get_miss h, ?_⟩
  intro s2 k2 h2
  rw [get_hit h2, get_miss h]

/-- Claim C3 amended witness: on an empty capacity-1 cache every key is
absent, and the miss result equals the hit result of a stored `nil`. -/
theorem c3_amended_nil_miss_witness :
    mapLookup 1 (NewLRUCache 1 : LRUCache Nat Nat).nodeMap = none ∧
      (get (NewLRUCache 1 : LRUCache Nat Nat) 1 = (none, NewLRUCache 1) ∧
        ∀ (s2 : LRUCache Nat Nat) (k2 : Nat),
          mapLookup k2 s2.nodeMap = some none →
          (get s2 k2).1 = (get (NewLRUCache 1 : LRUCache Nat Nat) 1).1) :=
  ⟨by decide, c3_amended_nil_miss (NewLRUCache 1) 1 (by decide)⟩

/-- Claim C10: a stored `nil` value is indistinguishable from a miss at
the public interface.  If `k` is stored with value `nil`, `Get k` returns
`nil` — exactly what `Get` returns for any absent key. -/
theorem c10_stored_nil_indistinguishable {K B : Type} [DecidableEq K]
    (s : LRUCache K B) (k : K) (h : mapLookup k s.nodeMap = some none) :
    (get s k).1 = none ∧
      ∀ (s2 : LRUCache K B) (k2 : K),
        mapLookup k2 s2.nodeMap = none →
        (get s2 k2).1 = (get s k).1 := by
  refine ⟨by rw [get_hit h], ?_⟩
  intro s2 k2 h2
  rw [get_hit h, get_miss h2]

/-- Claim C10 witness: store `nil` under key 0 in a capacity-1 cache;
`Get 0` yields `nil`, the same as any miss. -/
theorem c10_stored_nil_indistinguishable_witness :
    mapLookup 0 (put (NewLRUCache 1 : LRUCache Nat Nat) 0 none).nodeMap
        = some none ∧
      ((get (put (NewLRUCache 1 : LRUCache Nat Nat) 0 none) 0).1 = none ∧
        ∀ (s2 : LRUCache Nat Nat) (k2 : Nat),
          mapLookup k2 s2.nodeMap = none →
          (get s2 k2).1
            = (get (put (NewLRUCache 1 : LRUCache Nat Nat) 0 none) 0).1) :=
  ⟨by decide,
    c10_stored_nil_indistinguishable
      (put (NewLRUCache 1) 0 none) 0 (by decide)⟩

/-- Claim C4 counterexample: `NewLRUCache` never rejects its argument.
With capacity 0 (and even -3) it returns an ordinary cache value on which
`Put` then `Get` succeed; with capacity 0 a single `Put` already stores
one entry, so the instance is usable, not rejected. -/
theorem c4_counterexample_no_validation :
    (NewLRUCache 0 : LRUCache Nat Nat)
        = { cap := 0, order := [], nodeMap := [] } ∧
    (get (put (NewLRUCache 0 : LRUCache Nat Nat) 5 (some 7)) 5).1 = some 7 ∧
    (put (NewLRUCache 0 : LRUCache Nat Nat) 5 (some 7)).nodeMap.length = 1 ∧
    (get (put (NewLRUCache (-3) : LRUCache Nat Nat) 5 (some 7)) 5).1
      = some 7 := by
  decide

/-- Claim C4 as amended: `NewLRUCache` performs no validation at all: for
every capacity `c`, including every `c < 1`, it returns a cache with
`cap = c` and empty containers, and that cache is usable — a `Put` of any
key stores an entry that an immediate `Get` returns, so for `c < 1` the
entry count even exceeds the capacity. -/
theorem c4_amended_no_validation {K B : Type} [DecidableEq K] (c : Int)
    (hlt : c < 1) (k : K) (v : Option B) :
    NewLRUCache (K := K) (B := B) c
        = { cap := c, order := [], nodeMap := [] } ∧
      (get (put (NewLRUCache c) k v) k).1 = v ∧
      (put (NewLRUCache (K := K) (B := B) c) k v).nodeMap.length = 1 ∧
      ((put (NewLRUCache (K := K) (B := B) c) k v).nodeMap.length : Int)
        > c := by
  obtain ⟨s', hs'⟩ := put_eq_addFirst (NewLRUCache (K := K) (B := B) c) k v
  have hl : mapLookup k (put (NewLRUCache (K := K) (B := B) c) k v).nodeMap
      = some v := by
    rw [hs']
    exact lookup_addFirst_self s' k v
  have habs : mapLookup k (NewLRUCache (K := K) (B := B) c).nodeMap = none :=
    rfl
  have hfull : (((NewLRUCache (K := K) (B := B) c).nodeMap.length : Int))
      ≥ (NewLRUCache (K := K) (B := B) c).cap := by
    show (0 : Int) ≥ c
    omega
  have hput : put (NewLRUCache (K := K) (B := B) c) k v
      = addFirst k v (removeLast (NewLRUCache c)) :=
    put_absent_full habs hfull v
  have hrl : removeLast (NewLRUCache (K := K) (B := B) c) = NewLRUCache c :=
    rfl
  have hlen : (put (NewLRUCache (K := K) (B := B) c) k v).nodeMap.length
      = 1 := by
    rw [hput, hrl]
    rfl
  exact ⟨rfl, by rw [get_hit hl], hlen, by rw [hlen]; omega⟩

/-- Claim C4 amended witness: capacity 0 yields a usable cache whose
single entry already exceeds the capacity. -/
theorem c4_amended_no_validation_witness :
    (0 : Int) < 1 ∧
      ((NewLRUCache 0 : LRUCache Nat Nat)
          = { cap := 0, order := [], nodeMap := [] } ∧
        (get (put (NewLRUCache 0 : LRUCache Nat Nat) 3 (some 4)) 3).1
          = some 4 ∧
        (put (NewLRUCache 0 : LRUCache Nat Nat) 3 (some 4)).nodeMap.length
          = 1 ∧
        ((put (NewLRUCache 0 : LRUCache Nat Nat) 3 (some 4)).nodeMap.length
          : Int) > 0) :=
  ⟨by decide, c4_amended_no_validation 0 (by decide) 3 (some 4)⟩

/-- Claim C8 counterexample: `remove` does not clear the removed node's
own links.  In the three-node list `dllEx` (0 ↔ 1 ↔ 2), unlinking the
middle node 1 reconnects its neighbours (node 0's `Next` becomes 2, node
2's `Pre` becomes 0) but node 1 itself still carries `Pre = 0` and
`Next = 2` — neither link is cleared, contradicting the claimed
postcondition. -/
theorem c8_counterexample_links_not_cleared :
    hGet (removeP dllEx 1).heap 1 = some { key := 101, value := some 1, pre := some 0, nxt := some 2 } ∧
    ¬ ((hGet (removeP dllEx 1).heap 1).map PNode.pre = some none) ∧
    ¬ ((hGet (removeP dllEx 1).heap 1).map PNode.nxt = some none) ∧
    hGet (removeP dllEx 1).heap 0 = some { key := 100, value := some 0, pre := none, nxt := some 2 } ∧
    hGet (removeP dllEx 1).heap 2 = some { key := 102, value := some 2, pre := some 0, nxt := none } ∧
    (removeP dllEx 1).head = some 0 ∧
    (removeP dllEx 1).tail = some 2 := by
  decide

/-- Claim C8 as amended: unlinking a linked middle entry reconnects its
neighbours, leaves `head`/`tail` alone, and (at the list abstraction)
decreases the list length by one — but the removed entry's own `Pre` and
`Next` links are left untouched, not cleared; safe re-pushing is instead
arranged by `addFirst`, which clears `Pre` (and, when the list is empty,
leaves `Next` unchanged). -/
theorem c8_amended_unlink {K B : Type} [DecidableEq K] (d : DLL K B)
    (a p q : Nat) (node np nq : PNode K B)
    (ha : hGet d.heap a = some node) (hp : hGet d.heap p = some np)
    (hq : hGet d.heap q = some nq)
    (hpre : node.pre = some p) (hnxt : node.nxt = some q)
    (hap : a ≠ p) (haq : a ≠ q) (hpq : p ≠ q)
    (s : LRUCache K B) (k : K) (hk : k ∈ s.order) :
    hGet (removeP d a).heap a = some node ∧
      hGet (removeP d a).heap p = some { np with nxt := some q } ∧
      hGet (removeP d a).heap q = some { nq with pre := some p } ∧
      (removeP d a).head = d.head ∧
      (removeP d a).tail = d.tail ∧
      (remove k s).order.length + 1 = s.order.length ∧
      (∀ (d2 : DLL K B) (b : Nat) (m : PNode K B),
        hGet d2.heap b = some m → d2.head = none →
        hGet (addFirstP d2 b).heap b = some { m with pre := none }) := by
  have hq1 : hGet (hSet d.heap p { np with nxt := some q }) q = some nq := by
    rw [hGet_hSet_ne (fun e => hpq e.symm)]
    exact hq
  have hrp : removeP d a = { d with heap := hSet (hSet d.heap p { np with nxt := some q }) q { nq with pre := some p } } := by
    simp only [removeP, ha, hpre, hnxt, hp, hq1]
  refine ⟨?_, ?_, ?_, ?_, ?_, ?_, ?_⟩
  · rw [hrp]
    show hGet (hSet (hSet d.heap p { np with nxt := some q }) q { nq with pre := some p }) a = some node
    rw [hGet_hSet_ne haq, hGet_hSet_ne hap]
    exact ha
  · rw [hrp]
    show hGet (hSet (hSet d.heap p { np with nxt := some q }) q { nq with pre := some p }) p = some { np with nxt := some q }
    rw [hGet_hSet_ne hpq]
    exact hGet_hSet_self (by rw [hp]; rfl) { np with nxt := some q }
  · rw [hrp]
    show hGet (hSet (hSet d.heap p { np with nxt := some q }) q { nq with pre := some p }) q = some { nq with pre := some p }
    exact hGet_hSet_self (by rw [hq1]; rfl) { nq with pre := some p }
  · rw [hrp]
  · rw [hrp]
  · rw [show (remove k s).order = s.order.erase k from rfl,
      List.length_erase_of_mem hk]
    have hpos : 0 < s.order.length := List.length_pos.mpr
      (List.ne_nil_of_mem hk)
    omega
  · intro d2 b m hb hh
    simp only [addFirstP, hb, hh]
    exact hGet_hSet_self (by rw [hb]; rfl) { m with pre := none }

/-- Claim C8 amended witness: the amended statement applied to `dllEx`,
removing the middle node 1, together with the one-entry cache `cacheEx`
for the length clause. -/
theorem c8_amended_unlink_witness :
    hGet dllEx.heap 1 = some { key := 101, value := some 1, pre := some 0, nxt := some 2 } ∧
    hGet dllEx.heap 0 = some { key := 100, value := some 0, pre := none, nxt := some 1 } ∧
    hGet dllEx.heap 2 = some { key := 102, value := some 2, pre := some 1, nxt := none } ∧
    (5 : Nat) ∈ cacheEx.order ∧
    (hGet (removeP dllEx 1).heap 1 = some { key := 101, value := some 1, pre := some 0, nxt := some 2 } ∧
      hGet (removeP dllEx 1).heap 0 = some { key := 100, value := some 0, pre := none, nxt := some 2 } ∧
      hGet (removeP dllEx 1).heap 2 = some { key := 102, value := some 2, pre := some 0, nxt := none } ∧
      (removeP dllEx 1).head = dllEx.head ∧
      (removeP dllEx 1).tail = dllEx.tail ∧
      (remove 5 cacheEx).order.length + 1 = cacheEx.order.length ∧
      (∀ (d2 : DLL Nat Nat) (b : Nat) (m : PNode Nat Nat),
        hGet d2.heap b = some m → d2.head = none →
        hGet (addFirstP d2 b).heap b = some { m with pre := none })) := by
  refine ⟨by decide, by decide, by decide, by decide, ?_⟩
  have h := c8_amended_unlink dllEx 1 0 2
    { key := 101, value := some 1, pre := some 0, nxt := some 2 }
    { key := 100, value := some 0, pre := none, nxt := some 1 }
    { key := 102, value := some 2, pre := some 1, nxt := none }
    (by decide) (by decide) (by decide) (by decide) (by decide)
    (by decide) (by decide) (by decide)
    cacheEx 5 (by decide)
  exact h

end LRU
